import Mathlib

/-!
Shallow embedding of `sp_rb_interactive.py`, a SharePoint recycle-bin
restore helper.  The definitions below translate the reconciliation core of
the script: the path deriver `derive_drive_rel_path`, the three read probes
(`get_drive_item_by_exact_path`, `list_children`, `search_by_name`), the
restore submission (`gpost_json` / `batch_restore`) and the polling loop
`wait_for_file`.  Backend HTTP responses are inputs to the model: a probe
backend is a function from the attempt index to the (possibly failing)
response the backend would give on that attempt.
-/

namespace SpRb

/-- Characters stripped by Python `str.strip()` (ASCII whitespace). -/
def isPySpace (c : Char) : Bool :=
  c == ' ' || c == '\t' || c == '\n' || c == '\r' || c == '\x0b' || c == '\x0c'

/-- Models Python `s.strip()` on the character list of `s`. -/
def stripChars (l : List Char) : List Char :=
  ((l.dropWhile isPySpace).reverse.dropWhile isPySpace).reverse

/-- The normalisation applied by `derive_drive_rel_path`:
`deleted_from_location.strip().lstrip("/")` — whitespace stripped from both
ends, then leading slashes removed (trailing slashes are kept). -/
def normLoc (s : String) : List Char :=
  (stripChars s.data).dropWhile (fun c => c == '/')

/-- Boolean substring test on character lists; models Python `tok in s`. -/
def listInfix (tok : List Char) : List Char → Bool
  | [] => tok.isEmpty
  | c :: rest => tok.isPrefixOf (c :: rest) || listInfix tok rest

/-- Boolean substring test on strings; models Python `tok in s`. -/
def substr (tok s : String) : Bool :=
  listInfix tok.data s.data

/-- Models `p[p.rfind(tok):]`: the suffix of `l` starting at the last
occurrence of `tok`, or `none` when `tok` does not occur in `l`. -/
def fromLast (tok : List Char) : List Char → Option (List Char)
  | [] => if tok.isPrefixOf ([] : List Char) then some [] else none
  | c :: rest =>
    match fromLast tok rest with
    | some r => some r
    | none => if tok.isPrefixOf (c :: rest) then some (c :: rest) else none

/-- The canonical document-library token `"Shared Documents"`. -/
def sharedDocsToken : List Char := "Shared Documents".data

/-- Models `re.match(r"^sites/[^/]+/(.+)$", p)`, returning the first capture
group: `p` must start with `sites/`, followed by a non-empty slash-free
segment, a slash, and a non-empty remainder; `.` does not match a newline,
so a remainder containing `\n` fails the match (inputs here never end in a
newline, having been stripped). -/
def sitesRest (p : List Char) : Option (List Char) :=
  match p with
  | 's' :: 'i' :: 't' :: 'e' :: 's' :: '/' :: rest =>
    let seg := rest.takeWhile (fun c => c != '/')
    match rest.dropWhile (fun c => c != '/') with
    | '/' :: tail =>
      if seg.isEmpty || tail.isEmpty || tail.contains '\n' then none else some tail
    | _ => none
  | _ => none

/-- Models `derive_drive_rel_path` (source lines 115-128): `None` for a
falsy input; otherwise strip whitespace and leading slashes, take the
suffix at the last `"Shared Documents"` occurrence when present, else strip
a `sites/<segment>/` front when the regex matches, else return the
normalised string unchanged. -/
def derive_drive_rel_path (deleted_from_location : Option String) : Option String :=
  match deleted_from_location with
  | none => none
  | some s =>
    if s == "" then none
    else
      let p := normLoc s
      match fromLast sharedDocsToken p with
      | some suf => some (String.mk suf)
      | none =>
        match sitesRest p with
        | some rest => some (String.mk rest)
        | none => some (String.mk p)

/-- Lower-case of a string, used only to state case-insensitivity claims. -/
def lowerStr (s : String) : String :=
  String.mk (s.data.map Char.toLower)

/-- Hex digit value, as accepted by `urllib.parse.unquote` (`%4a` and `%4A`
both decode). -/
def hexVal (c : Char) : Option Nat :=
  if '0' ≤ c ∧ c ≤ '9' then some (c.toNat - '0'.toNat)
  else if 'a' ≤ c ∧ c ≤ 'f' then some (c.toNat - 'a'.toNat + 10)
  else if 'A' ≤ c ∧ c ≤ 'F' then some (c.toNat - 'A'.toNat + 10)
  else none

/-- Models `urllib.parse.unquote` on character lists: a `%` followed by two
hex digits decodes to the character with that code point (exact for the
ASCII range; multi-byte UTF-8 escape sequences are out of scope for the
claims), any malformed escape is kept verbatim. -/
def unquoteChars : List Char → List Char
  | [] => []
  | '%' :: a :: b :: rest2 =>
    match hexVal a, hexVal b with
    | some ha, some hb => Char.ofNat (16 * ha + hb) :: unquoteChars rest2
    | _, _ => '%' :: unquoteChars (a :: b :: rest2)
  | c :: rest => c :: unquoteChars rest

/-- Models `urllib.parse.unquote` on strings. -/
def unquote (s : String) : String :=
  String.mk (unquoteChars s.data)

/-- Models `s.replace(" ", "%20")` from the search-preference filter. -/
def encodeSpaces (s : String) : String :=
  String.mk (s.data.flatMap (fun c => if c == ' ' then "%20".data else [c]))

/-- A drive item as consumed by `wait_for_file`: only the fields the loop
reads.  `name` is `none` when the JSON field is absent or not a string;
`lastModifiedDateTime` is `none` when absent (Python then sorts on the
default `""`); `parentPath` models `(r.get("parentReference") or
\x7b\x7d).get("path")`, `none` when absent (Python then uses `""`). -/
structure Item where
  name : Option String
  lastModifiedDateTime : Option String
  parentPath : Option String
  deriving Repr, DecidableEq

/-- A failed Graph call (`gget` raises on any non-ok status, including
not-found). -/
structure GraphError where
  status : Nat
  deriving Repr, DecidableEq

/-- Python truthiness of an optional string (`None` and `""` are falsy). -/
def truthyOpt : Option String → Bool
  | none => false
  | some s => s != ""

/-- Sort key of both ranking sites: `c.get("lastModifiedDateTime", "")`,
as a character list. -/
def tsKeyL (c : Item) : List Char :=
  (c.lastModifiedDateTime.getD "").data

/-- Strict lexicographic comparison of character lists by code point;
models Python `str` comparison as used by `list.sort(key=...)`. -/
def lexLt : List Char → List Char → Bool
  | _, [] => false
  | [], _ :: _ => true
  | a :: as, b :: bs => if a < b then true else if b < a then false else lexLt as bs

/-- Stable insertion step of the descending sort: `x` is placed before the
first element whose key is not greater than `x`'s. -/
def insertDesc (x : Item) : List Item → List Item
  | [] => [x]
  | y :: ys => if lexLt (tsKeyL x) (tsKeyL y) then y :: insertDesc x ys else x :: y :: ys

/-- Stable descending sort by `lastModifiedDateTime`; models Python
`lst.sort(key=lambda c: c.get("lastModifiedDateTime", ""), reverse=True)`
(Python's sort is stable, and `reverse=True` keeps the original order of
equal keys). -/
def sortDescBy : List Item → List Item
  | [] => []
  | x :: xs => insertDesc x (sortDescBy xs)

/-- Head of the stable descending sort: the "newest candidate" selection
used at both ranking sites (`cand[0]` and `results[0]` after sorting). -/
def pickNewest (l : List Item) : Option Item :=
  (sortDescBy l).head?

/-- A list is sorted descending by timestamp key: no later element has a
strictly greater key than an earlier one. -/
def SortedDesc (l : List Item) : Prop :=
  List.Pairwise (fun a b => lexLt (tsKeyL a) (tsKeyL b) = false) l

/-- Models `get_drive_item_by_exact_path` (source lines 130-139): `None`
when the folder path or name is falsy, otherwise the fetched item, with any
backend error swallowed to `None`. -/
def get_drive_item_by_exact_path (drive_rel_path nm : Option String)
    (fetch : Except GraphError Item) : Option Item :=
  if !truthyOpt drive_rel_path || !truthyOpt nm then none
  else
    match fetch with
    | .ok it => some it
    | .error _ => none

/-- Models `list_children` (source lines 141-151): empty for a falsy folder
path, otherwise the listed children, with any backend error swallowed to
`[]`. -/
def list_children (drive_rel_path : Option String)
    (fetch : Except GraphError (List Item)) : List Item :=
  if !truthyOpt drive_rel_path then []
  else
    match fetch with
    | .ok l => l
    | .error _ => []

/-- Models `search_by_name` (source lines 153-160): the paginated search
results, with any backend error swallowed to `[]`. -/
def search_by_name (fetch : Except GraphError (List Item)) : List Item :=
  match fetch with
  | .ok l => l
  | .error _ => []

/-- Models `name.rsplit(".", 1)[0]`: the part of the name before its last
dot, or the whole name when it has no dot. -/
def stemOf (nm : String) : String :=
  let parts := nm.splitOn "."
  if parts.length ≤ 1 then nm else String.intercalate "." parts.dropLast

/-- Candidate filter of the folder-listing strategy (source line 194):
the child's name is a string and equals the target name or starts with its
stem. -/
def candMatch (nm : String) (c : Item) : Bool :=
  match c.name with
  | some n => n == nm || (stemOf nm).data.isPrefixOf n.data
  | none => false

/-- Folder-proximity test of the search strategy (source lines 203-206):
the space-encoded folder occurs in the raw parent path, or the folder
occurs in the percent-decoded parent path.  Both containment checks are
case-sensitive. -/
def folderMatch (d : String) (r : Item) : Bool :=
  substr (encodeSpaces d) (r.parentPath.getD "") ||
    substr d (unquote (r.parentPath.getD ""))

/-- Preference step of the search strategy (source lines 201-208): keep the
folder-matching results when the folder path is truthy and at least one
result matches, otherwise keep the full result list. -/
def preferFolder (dr : Option String) (results : List Item) : List Item :=
  match dr with
  | none => results
  | some d =>
    if d != "" then
      let pref := results.filter (folderMatch d)
      if pref.isEmpty then results else pref
    else results

/-- The ranking applied to search results (source lines 200-210): `none`
for an empty result list, otherwise the newest item of the preferred
partition. -/
def rank (results : List Item) (dr : Option String) : Option Item :=
  match results with
  | [] => none
  | _ :: _ => pickNewest (preferFolder dr results)

/-- The backend as seen by one reconciliation run: the response each probe
would receive on attempt `k`.  Probes are read-only, so the responses are a
function of the attempt index only. -/
structure Backend where
  exact : Nat → Except GraphError Item
  children : Nat → Except GraphError (List Item)
  search : Nat → Except GraphError (List Item)

/-- Result of the exact-path probe on attempt `k` of `wait_for_file`. -/
def runExact (b : Backend) (dr : Option String) (nm : String) (k : Nat) : Option Item :=
  get_drive_item_by_exact_path dr (some nm) (b.exact k)

/-- Children returned on attempt `k`: `wait_for_file` only calls
`list_children` when the folder path is truthy (source line 191). -/
def runChildren (b : Backend) (dr : Option String) (k : Nat) : List Item :=
  if truthyOpt dr then list_children dr (b.children k) else []

/-- The filtered, sorted folder-listing candidates of attempt `k`
(source lines 193-195). -/
def candidatesOf (b : Backend) (dr : Option String) (nm : String) (k : Nat) : List Item :=
  sortDescBy ((runChildren b dr k).filter (candMatch nm))

/-- Search results of attempt `k` (source line 199). -/
def runSearch (b : Backend) (nm : String) (k : Nat) : List Item :=
  search_by_name (b.search k)

/-- Outcome of one attempt of `wait_for_file`: the exact hit, else the best
filtered child, else the best search result, else `none` (source lines
185-210). -/
def attemptResult (b : Backend) (dr : Option String) (nm : String) (k : Nat) : Option Item :=
  match runExact b dr nm k with
  | some it => some it
  | none =>
    match candidatesOf b dr nm k with
    | c :: _ => some c
    | [] =>
      let results := runSearch b nm k
      if results.isEmpty then none else rank results dr

/-- One observable backend interaction of the loop, tagged with its attempt
index; `sleepc` records the `time.sleep(sleep_sec)` call and its duration. -/
inductive Call where
  | exactp (k : Nat)
  | listf (k : Nat)
  | searchp (k : Nat)
  | sleepc (k : Nat) (dur : Nat)
  deriving Repr, DecidableEq

/-- Attempt index of a recorded call. -/
def attemptOfCall : Call → Nat
  | .exactp k => k
  | .listf k => k
  | .searchp k => k
  | .sleepc k _ => k

/-- Whether a recorded call is one of the three read probes (rather than a
sleep). -/
def isProbe : Call → Bool
  | .sleepc _ _ => false
  | _ => true

/-- The probe calls attempt `k` makes, in order: always the exact-path
lookup; the folder listing only when the folder path is truthy; the search
only when the first two strategies yielded nothing. -/
def attemptTrace (b : Backend) (dr : Option String) (nm : String) (k : Nat) : List Call :=
  match runExact b dr nm k with
  | some _ => [Call.exactp k]
  | none =>
    match candidatesOf b dr nm k with
    | _ :: _ => Call.exactp k :: (if truthyOpt dr then [Call.listf k] else [])
    | [] =>
      (Call.exactp k :: (if truthyOpt dr then [Call.listf k] else [])) ++ [Call.searchp k]

/-- The polling loop of `wait_for_file` from attempt `k` with `rem`
attempts remaining, instrumented with the list of backend interactions it
performs: each attempt runs the three strategies in order, a fully missed
attempt ends with a sleep of `sleepSec`, and the loop stops at the first
hit or when the budget is exhausted. -/
def waitAux (b : Backend) (dr : Option String) (nm : String) (sleepSec : Nat) :
    Nat → Nat → Option Item × List Call
  | _, 0 => (none, [])
  | k, rem + 1 =>
    match attemptResult b dr nm k with
    | some it => (some it, attemptTrace b dr nm k)
    | none =>
      ((waitAux b dr nm sleepSec (k + 1) rem).1,
        attemptTrace b dr nm k ++
          Call.sleepc k sleepSec :: (waitAux b dr nm sleepSec (k + 1) rem).2)

/-- Models `wait_for_file` (source lines 177-212), returning its result
together with the full trace of backend interactions.  The script calls it
with `attempts=6, sleep_sec=2` (the signature defaults). -/
def wait_for_file (b : Backend) (dr : Option String) (nm : String)
    (attempts sleepSec : Nat) : Option Item × List Call :=
  waitAux b dr nm sleepSec 0 attempts

/-- A backend on which every probe fails on every attempt. -/
def allMiss : Backend :=
  ⟨fun _ => .error ⟨404⟩, fun _ => .error ⟨404⟩, fun _ => .error ⟨404⟩⟩

/-- A backend whose exact-path probe succeeds on every attempt. -/
def exactHitBackend : Backend :=
  ⟨fun _ => .ok ⟨some "f.txt", some "2024", none⟩,
    fun _ => .error ⟨500⟩, fun _ => .error ⟨500⟩⟩

/-- The statuses `gpost_json` accepts (source line 41); 207 is the
partial-success status of the batch restore endpoint. -/
def successStatuses : List Nat := [200, 201, 202, 204, 207]

/-- One entry of the restore response's `value` list; `id` is `none` when
the entry has no id field. -/
structure RestoreEntry where
  id : Option String
  deriving Repr, DecidableEq

/-- A response of the restore endpoint: its status code and its parsed
`value` list (`none` models an empty response body, which `gpost_json`
turns into `\x7b\x7d` and the caller then reads as an empty list). -/
structure PostResponse where
  status : Nat
  value : Option (List RestoreEntry)
  deriving Repr, DecidableEq

/-- Models `gpost_json` (source lines 37-43): raise unless the status is
one of 200/201/202/204/207, else return the parsed body (empty body gives
an empty `value` list). -/
def gpost_json (resp : PostResponse) : Except Nat (List RestoreEntry) :=
  if resp.status ∈ successStatuses then .ok (resp.value.getD []) else .error resp.status

/-- Models `batch_restore` (source lines 110-113): a single POST through
`gpost_json`; `ids` is the requested identifier list. -/
def batch_restore (ids : List String) (resp : PostResponse) : Except Nat (List RestoreEntry) :=
  gpost_json resp

/-- The acknowledged ids the caller extracts from the restore response
(source line 283): `[x.get("id") for x in resp.get("value", [])]`. -/
def echoedIds (entries : List RestoreEntry) : List (Option String) :=
  entries.map (fun e => e.id)

/-! Lemmas about the lexicographic comparison. -/

theorem lexLt_nil_right (l : List Char) : lexLt l [] = false := by
  cases l <;> rfl

theorem lexLt_cons_cons (a b : Char) (as bs : List Char) :
    lexLt (a :: as) (b :: bs) =
      (if a < b then true else if b < a then false else lexLt as bs) := rfl

theorem lexLt_irrefl (l : List Char) : lexLt l l = false := by
  induction l with
  | nil => rfl
  | cons c cs ih => simp [lexLt_cons_cons, lt_irrefl, ih]

theorem lexLt_nil_left (b : List Char) (h : lexLt [] b = false) : b = [] := by
  cases b with
  | nil => rfl
  | cons c cs => simp [lexLt] at h

theorem lexLt_asymm : ∀ a b : List Char, lexLt a b = true → lexLt b a = false
  | _, [], h => by rw [lexLt_nil_right] at h; cases h
  | [], _ :: _, _ => lexLt_nil_right _
  | a0 :: as, b0 :: bs, h => by
    rw [lexLt_cons_cons] at h
    rw [lexLt_cons_cons]
    by_cases hab : a0 < b0
    · simp [hab, lt_asymm hab]
    · by_cases hba : b0 < a0
      · simp [hab, hba] at h
      · simp only [hab, hba, if_false] at h
        simp [hab, hba, lexLt_asymm as bs h]

theorem lexLt_neg_trans :
    ∀ a b c : List Char, lexLt a b = false → lexLt b c = false → lexLt a c = false
  | a, _, [], _, _ => lexLt_nil_right a
  | [], b, c0 :: cs, h1, h2 => by
    rw [lexLt_nil_left b h1] at h2
    simp [lexLt] at h2
  | _ :: _, [], c0 :: cs, _, h2 => by simp [lexLt] at h2
  | a0 :: as, b0 :: bs, c0 :: cs, h1, h2 => by
    rw [lexLt_cons_cons] at h1 h2
    rw [lexLt_cons_cons]
    by_cases hab : a0 < b0
    · simp [hab] at h1
    · by_cases hbc : b0 < c0
      · simp [hbc] at h2
      · by_cases hba : b0 < a0
        · have hca : ¬ a0 < c0 := fun hc => hbc (lt_trans hba hc)
          by_cases hcb : c0 < a0
          · simp [hca, hcb]
          · have hle : a0 ≤ b0 := le_trans (le_of_not_lt hcb) (le_of_not_lt hbc)
            exact absurd (lt_of_lt_of_le hba hle) (lt_irrefl b0)
        · have hab' : a0 = b0 := le_antisymm (le_of_not_lt hba) (le_of_not_lt hab)
          subst hab'
          rw [if_neg (lt_irrefl a0), if_neg (lt_irrefl a0)] at h1
          rw [if_neg hbc] at h2
          by_cases hca : c0 < a0
          · rw [if_neg hbc, if_pos hca]
          · rw [if_neg hca] at h2
            rw [if_neg hbc, if_neg hca]
            exact lexLt_neg_trans as bs cs h1 h2

/-! Lemmas about the stable descending sort. -/

theorem mem_insertDesc (x a : Item) (l : List Item) :
    a ∈ insertDesc x l ↔ a = x ∨ a ∈ l := by
  induction l with
  | nil => simp [insertDesc]
  | cons y ys ih =>
    simp only [insertDesc]
    split
    · simp only [List.mem_cons, ih]
      tauto
    · simp [List.mem_cons]

theorem insertDesc_ne_nil (x : Item) (l : List Item) : insertDesc x l ≠ [] := by
  cases l with
  | nil => simp [insertDesc]
  | cons y ys =>
    simp only [insertDesc]
    split <;> simp

theorem insertDesc_sorted (x : Item) (l : List Item) (h : SortedDesc l) :
    SortedDesc (insertDesc x l) := by
  unfold SortedDesc at h ⊢
  induction l with
  | nil => simp [insertDesc]
  | cons y ys ih =>
    rw [List.pairwise_cons] at h
    obtain ⟨hy, hys⟩ := h
    simp only [insertDesc]
    split
    · rename_i hlt
      rw [List.pairwise_cons]
      refine ⟨?_, ih hys⟩
      intro z hz
      rcases (mem_insertDesc x z ys).mp hz with hzx | hzy
      · subst hzx
        exact lexLt_asymm _ _ hlt
      · exact hy z hzy
    · rename_i hnlt
      rw [Bool.not_eq_true] at hnlt
      rw [List.pairwise_cons]
      constructor
      · intro z hz
        rcases List.mem_cons.mp hz with hzy | hzy
        · subst hzy; exact hnlt
        · exact lexLt_neg_trans _ _ _ hnlt (hy z hzy)
      · rw [List.pairwise_cons]
        exact ⟨hy, hys⟩

theorem sortDescBy_sorted (l : List Item) : SortedDesc (sortDescBy l) := by
  induction l with
  | nil => unfold SortedDesc sortDescBy; simp
  | cons x xs ih => exact insertDesc_sorted x (sortDescBy xs) ih

theorem mem_sortDescBy (a : Item) (l : List Item) : a ∈ sortDescBy l ↔ a ∈ l := by
  induction l with
  | nil => simp [sortDescBy]
  | cons x xs ih =>
    simp only [sortDescBy, mem_insertDesc, List.mem_cons, ih]

theorem sortDescBy_eq_nil (l : List Item) (h : sortDescBy l = []) : l = [] := by
  cases l with
  | nil => rfl
  | cons x xs => exact absurd h (insertDesc_ne_nil x (sortDescBy xs))

theorem pickNewest_spec (l : List Item) (m : Item) (h : pickNewest l = some m) :
    m ∈ l ∧ ∀ x ∈ l, lexLt (tsKeyL m) (tsKeyL x) = false := by
  rw [pickNewest] at h
  rcases hs : sortDescBy l with _ | ⟨m0, t⟩
  · rw [hs] at h; simp at h
  · rw [hs] at h
    have hm : m0 = m := by simpa using h
    subst hm
    have hmem : m0 ∈ l := (mem_sortDescBy m0 l).mp (by rw [hs]; exact List.mem_cons_self m0 t)
    refine ⟨hmem, ?_⟩
    intro x hx
    have hx' : x ∈ sortDescBy l := (mem_sortDescBy x l).mpr hx
    rw [hs] at hx'
    rcases List.mem_cons.mp hx' with hxm | hxt
    · subst hxm; exact lexLt_irrefl _
    · have hsorted := sortDescBy_sorted l
      unfold SortedDesc at hsorted
      rw [hs, List.pairwise_cons] at hsorted
      exact hsorted.1 x hxt

theorem sortDescBy_const_key (l : List Item) (h : ∀ x ∈ l, tsKeyL x = []) :
    sortDescBy l = l := by
  induction l with
  | nil => rfl
  | cons y ys ih =>
    have hys : ∀ x ∈ ys, tsKeyL x = [] := fun x hx => h x (List.mem_cons_of_mem y hx)
    rw [sortDescBy, ih hys]
    cases ys with
    | nil => rfl
    | cons z zs =>
      have hy : tsKeyL y = [] := h y (List.mem_cons_self y (z :: zs))
      have hz : tsKeyL z = [] := h z (by simp)
      simp [insertDesc, hy, hz, lexLt]

/-! Lemmas about `fromLast`. -/

theorem isPrefixOf_nil (tok : List Char) : tok.isPrefixOf ([] : List Char) = tok.isEmpty := by
  cases tok <;> rfl

theorem fromLast_isSome (tok : List Char) (l : List Char) :
    (fromLast tok l).isSome = listInfix tok l := by
  induction l with
  | nil =>
    rw [listInfix, fromLast, isPrefixOf_nil]
    cases tok <;> simp
  | cons c rest ih =>
    rw [listInfix, fromLast]
    rcases h : fromLast tok rest with _ | r
    · rw [h] at ih
      simp only [Option.isSome_none] at ih
      simp only [← ih, Bool.or_false]
      split <;> rename_i hp <;> simp [hp]
    · rw [h] at ih
      simp only [Option.isSome_some] at ih
      simp [← ih]

theorem fromLast_spec (tok : List Char) (htok : tok ≠ []) :
    ∀ l r, fromLast tok l = some r →
      tok.isPrefixOf r = true ∧ r <:+ l ∧ listInfix tok (r.drop 1) = false := by
  intro l
  induction l with
  | nil =>
    intro r h
    rw [fromLast, isPrefixOf_nil] at h
    cases tok with
    | nil => exact absurd rfl htok
    | cons t ts => simp at h
  | cons c rest ih =>
    intro r h
    rw [fromLast] at h
    rcases h0 : fromLast tok rest with _ | r0
    · rw [h0] at h
      simp only at h
      split at h <;> rename_i hp
      · injection h with hr
        subst hr
        refine ⟨hp, List.suffix_refl _, ?_⟩
        have := fromLast_isSome tok rest
        rw [h0] at this
        simpa using this.symm
      · cases h
    · rw [h0] at h
      injection h with hr
      subst hr
      obtain ⟨h1, h2, h3⟩ := ih r0 h0
      exact ⟨h1, h2.trans (List.suffix_cons c rest), h3⟩

/-! Lemmas about one attempt's trace. -/

theorem mem_attemptTrace_cases (b : Backend) (dr : Option String) (nm : String) (k : Nat)
    (c : Call) (hc : c ∈ attemptTrace b dr nm k) :
    c = Call.exactp k ∨ c = Call.listf k ∨ c = Call.searchp k := by
  unfold attemptTrace at hc
  split at hc
  · simp only [List.mem_singleton] at hc
    exact Or.inl hc
  · split at hc
    · rcases List.mem_cons.mp hc with h | h
      · exact Or.inl h
      · split at h
        · simp only [List.mem_singleton] at h
          exact Or.inr (Or.inl h)
        · cases h
    · rcases List.mem_append.mp hc with h | h
      · rcases List.mem_cons.mp h with h | h
        · exact Or.inl h
        · split at h
          · simp only [List.mem_singleton] at h
            exact Or.inr (Or.inl h)
          · cases h
      · simp only [List.mem_singleton] at h
        exact Or.inr (Or.inr h)

theorem mem_attemptTrace_attempt (b : Backend) (dr : Option String) (nm : String) (k : Nat)
    (c : Call) (hc : c ∈ attemptTrace b dr nm k) : attemptOfCall c = k := by
  rcases mem_attemptTrace_cases b dr nm k c hc with h | h | h <;> subst h <;> rfl

theorem mem_attemptTrace_isProbe (b : Backend) (dr : Option String) (nm : String) (k : Nat)
    (c : Call) (hc : c ∈ attemptTrace b dr nm k) : isProbe c = true := by
  rcases mem_attemptTrace_cases b dr nm k c hc with h | h | h <;> subst h <;> rfl

theorem attemptTrace_length (b : Backend) (dr : Option String) (nm : String) (k : Nat) :
    (attemptTrace b dr nm k).length ≤ 3 := by
  unfold attemptTrace
  split
  · simp
  · split <;> split <;> simp

theorem attemptTrace_exact_hit (b : Backend) (dr : Option String) (nm : String) (k : Nat)
    (it : Item) (h : runExact b dr nm k = some it) :
    attemptTrace b dr nm k = [Call.exactp k] := by
  unfold attemptTrace
  rw [h]

theorem attemptResult_exact_hit (b : Backend) (dr : Option String) (nm : String) (k : Nat)
    (it : Item) (h : runExact b dr nm k = some it) :
    attemptResult b dr nm k = some it := by
  unfold attemptResult
  rw [h]

theorem exactp_mem_attemptTrace (b : Backend) (dr : Option String) (nm : String) (k : Nat) :
    Call.exactp k ∈ attemptTrace b dr nm k := by
  unfold attemptTrace
  split
  · simp
  · split
    · exact List.mem_cons_self _ _
    · exact List.mem_append_left _ (List.mem_cons_self _ _)

theorem searchp_mem_attemptTrace (b : Backend) (dr : Option String) (nm : String) (k k' : Nat)
    (h : Call.searchp k' ∈ attemptTrace b dr nm k) :
    runExact b dr nm k = none ∧ candidatesOf b dr nm k = [] := by
  unfold attemptTrace at h
  split at h
  · simp at h
  · rename_i hre
    split at h
    · rcases List.mem_cons.mp h with h | h
      · cases h
      · split at h
        · simp at h
        · cases h
    · rename_i hcand
      exact ⟨hre, hcand⟩

theorem attemptResult_none_parts (b : Backend) (dr : Option String) (nm : String) (k : Nat)
    (h : attemptResult b dr nm k = none) :
    runExact b dr nm k = none ∧ candidatesOf b dr nm k = [] := by
  unfold attemptResult at h
  split at h
  · cases h
  · rename_i hre
    split at h
    · cases h
    · rename_i hcand
      exact ⟨hre, hcand⟩

/-! Lemmas about the instrumented loop. -/

theorem waitAux_attempt_range (b : Backend) (dr : Option String) (nm : String) (s : Nat) :
    ∀ rem k c, c ∈ (waitAux b dr nm s k rem).2 →
      k ≤ attemptOfCall c ∧ attemptOfCall c < k + rem := by
  intro rem
  induction rem with
  | zero =>
    intro k c hc
    simp [waitAux] at hc
  | succ r ih =>
    intro k c hc
    rcases har : attemptResult b dr nm k with _ | it0
    · simp only [waitAux, har] at hc
      rcases List.mem_append.mp hc with h | h
      · have := mem_attemptTrace_attempt b dr nm k c h
        omega
      · rcases List.mem_cons.mp h with h | h
        · subst h
          simp only [attemptOfCall]
          omega
        · have := ih (k + 1) c h
          omega
    · simp only [waitAux, har] at hc
      have := mem_attemptTrace_attempt b dr nm k c hc
      omega

theorem waitAux_probe_count (b : Backend) (dr : Option String) (nm : String) (s : Nat) :
    ∀ rem k j,
      ((waitAux b dr nm s k rem).2.filter
        (fun c => isProbe c && (attemptOfCall c == j))).length ≤ 3 := by
  intro rem
  induction rem with
  | zero =>
    intro k j
    simp [waitAux]
  | succ r ih =>
    intro k j
    rcases har : attemptResult b dr nm k with _ | it0
    · simp only [waitAux, har]
      rw [List.filter_append]
      rw [List.length_append]
      have hsleep : (List.filter (fun c => isProbe c && (attemptOfCall c == j))
          (Call.sleepc k s :: (waitAux b dr nm s (k + 1) r).2)) =
          (List.filter (fun c => isProbe c && (attemptOfCall c == j))
            (waitAux b dr nm s (k + 1) r).2) := by
        rw [List.filter_cons]
        simp [isProbe]
      rw [hsleep]
      by_cases hjk : j = k
      · subst hjk
        have htail : (List.filter (fun c => isProbe c && (attemptOfCall c == j))
            (waitAux b dr nm s (j + 1) r).2) = [] := by
          rw [List.filter_eq_nil_iff]
          intro c hc
          have := waitAux_attempt_range b dr nm s r (j + 1) c hc
          simp only [Bool.and_eq_true, beq_iff_eq]
          intro hcontra
          omega
        rw [htail]
        simp only [List.length_nil, Nat.add_zero]
        exact le_trans (List.length_filter_le _ _) (attemptTrace_length b dr nm j)
      · have hhead : (List.filter (fun c => isProbe c && (attemptOfCall c == j))
            (attemptTrace b dr nm k)) = [] := by
          rw [List.filter_eq_nil_iff]
          intro c hc
          have := mem_attemptTrace_attempt b dr nm k c hc
          simp only [Bool.and_eq_true, beq_iff_eq]
          intro hcontra
          omega
        rw [hhead]
        simp only [List.length_nil, Nat.zero_add]
        exact ih (k + 1) j
    · simp only [waitAux, har]
      exact le_trans (List.length_filter_le _ _) (attemptTrace_length b dr nm k)

theorem waitAux_none_of_all_miss (b : Backend) (dr : Option String) (nm : String) (s : Nat) :
    ∀ rem k, (∀ j, k ≤ j → j < k + rem → attemptResult b dr nm j = none) →
      (waitAux b dr nm s k rem).1 = none := by
  intro rem
  induction rem with
  | zero =>
    intro k _
    rfl
  | succ r ih =>
    intro k hmiss
    rcases har : attemptResult b dr nm k with _ | it0
    · simp only [waitAux, har]
      exact ih (k + 1) (fun j h1 h2 => hmiss j (by omega) (by omega))
    · exact absurd har (by rw [hmiss k (by omega) (by omega)]; simp)

theorem waitAux_exact_hit (b : Backend) (dr : Option String) (nm : String) (s : Nat) :
    ∀ rem k j it, runExact b dr nm j = some it →
      Call.exactp j ∈ (waitAux b dr nm s k rem).2 →
      (waitAux b dr nm s k rem).1 = some it ∧
      Call.listf j ∉ (waitAux b dr nm s k rem).2 ∧
      Call.searchp j ∉ (waitAux b dr nm s k rem).2 := by
  intro rem
  induction rem with
  | zero =>
    intro k j it hre hmem
    simp [waitAux] at hmem
  | succ r ih =>
    intro k j it hre hmem
    rcases har : attemptResult b dr nm k with _ | it0
    · simp only [waitAux, har] at hmem ⊢
      rcases List.mem_append.mp hmem with h | h
      · have hjk := mem_attemptTrace_attempt b dr nm k _ h
        simp only [attemptOfCall] at hjk
        subst hjk
        rw [attemptResult_exact_hit b dr nm j it hre] at har
        cases har
      · rcases List.mem_cons.mp h with h | h
        · cases h
        · obtain ⟨hres, hnl, hns⟩ := ih (k + 1) j it hre h
          have hjge : k + 1 ≤ j := by
            have := waitAux_attempt_range b dr nm s r (k + 1) _ h
            simpa [attemptOfCall] using this.1
          refine ⟨hres, ?_, ?_⟩
          · intro hcontra
            rcases List.mem_append.mp hcontra with h' | h'
            · have := mem_attemptTrace_attempt b dr nm k _ h'
              simp only [attemptOfCall] at this
              omega
            · rcases List.mem_cons.mp h' with h' | h'
              · cases h'
              · exact hnl h'
          · intro hcontra
            rcases List.mem_append.mp hcontra with h' | h'
            · have := mem_attemptTrace_attempt b dr nm k _ h'
              simp only [attemptOfCall] at this
              omega
            · rcases List.mem_cons.mp h' with h' | h'
              · cases h'
              · exact hns h'
    · simp only [waitAux, har] at hmem ⊢
      have hjk := mem_attemptTrace_attempt b dr nm k _ hmem
      simp only [attemptOfCall] at hjk
      subst hjk
      have hit : it0 = it := by
        rw [attemptResult_exact_hit b dr nm j it hre] at har
        injection har with h
        exact h.symm
      rw [attemptTrace_exact_hit b dr nm j it hre, hit]
      refine ⟨rfl, ?_, ?_⟩ <;> simp

theorem waitAux_search_pre (b : Backend) (dr : Option String) (nm : String) (s : Nat) :
    ∀ rem k j, Call.searchp j ∈ (waitAux b dr nm s k rem).2 →
      runExact b dr nm j = none ∧ candidatesOf b dr nm j = [] := by
  intro rem
  induction rem with
  | zero =>
    intro k j hmem
    simp [waitAux] at hmem
  | succ r ih =>
    intro k j hmem
    rcases har : attemptResult b dr nm k with _ | it0
    · simp only [waitAux, har] at hmem
      rcases List.mem_append.mp hmem with h | h
      · have hjk := mem_attemptTrace_attempt b dr nm k _ h
        simp only [attemptOfCall] at hjk
        subst hjk
        exact searchp_mem_attemptTrace b dr nm j j h
      · rcases List.mem_cons.mp h with h | h
        · cases h
        · exact ih (k + 1) j h
    · simp only [waitAux, har] at hmem
      have hjk := mem_attemptTrace_attempt b dr nm k _ hmem
      simp only [attemptOfCall] at hjk
      subst hjk
      exact searchp_mem_attemptTrace b dr nm j j hmem

theorem waitAux_sleep_iff (b : Backend) (dr : Option String) (nm : String) (s : Nat) :
    ∀ rem k j d, Call.sleepc j d ∈ (waitAux b dr nm s k rem).2 ↔
      (d = s ∧ Call.exactp j ∈ (waitAux b dr nm s k rem).2 ∧
        attemptResult b dr nm j = none) := by
  intro rem
  induction rem with
  | zero =>
    intro k j d
    simp [waitAux]
  | succ r ih =>
    intro k j d
    rcases har : attemptResult b dr nm k with _ | it0
    · simp only [waitAux, har]
      constructor
      · intro hmem
        rcases List.mem_append.mp hmem with h | h
        · have := mem_attemptTrace_isProbe b dr nm k _ h
          simp [isProbe] at this
        · rcases List.mem_cons.mp h with h | h
          · have hj : j = k ∧ d = s := by
              constructor <;> injection h <;> assumption
            obtain ⟨hj1, hj2⟩ := hj
            subst hj1; subst hj2
            exact ⟨rfl, List.mem_append_left _ (exactp_mem_attemptTrace b dr nm j), har⟩
          · obtain ⟨hd, hex, hmiss⟩ := (ih (k + 1) j d).mp h
            exact ⟨hd, List.mem_append_right _ (List.mem_cons_of_mem _ hex), hmiss⟩
      · rintro ⟨hd, hex, hmiss⟩
        rcases List.mem_append.mp hex with h | h
        · have hjk := mem_attemptTrace_attempt b dr nm k _ h
          simp only [attemptOfCall] at hjk
          rw [hd, hjk]
          exact List.mem_append_right _ (List.mem_cons_self _ _)
        · rcases List.mem_cons.mp h with h | h
          · cases h
          · have hmem2 : Call.sleepc j d ∈ (waitAux b dr nm s (k + 1) r).2 :=
              (ih (k + 1) j d).mpr ⟨hd, h, hmiss⟩
            exact List.mem_append_right _ (List.mem_cons_of_mem _ hmem2)
    · simp only [waitAux, har]
      constructor
      · intro hmem
        have := mem_attemptTrace_isProbe b dr nm k _ hmem
        simp [isProbe] at this
      · rintro ⟨hd, hex, hmiss⟩
        have hjk := mem_attemptTrace_attempt b dr nm k _ hex
        simp only [attemptOfCall] at hjk
        subst hjk
        rw [hmiss] at har
        cases har

theorem waitAux_all_ran (b : Backend) (dr : Option String) (nm : String) (s : Nat) :
    ∀ rem k, (waitAux b dr nm s k rem).1 = none →
      ∀ j, k ≤ j → j < k + rem → Call.exactp j ∈ (waitAux b dr nm s k rem).2 := by
  intro rem
  induction rem with
  | zero =>
    intro k _ j h1 h2
    omega
  | succ r ih =>
    intro k hres j h1 h2
    rcases har : attemptResult b dr nm k with _ | it0
    · simp only [waitAux, har] at hres ⊢
      by_cases hjk : j = k
      · subst hjk
        exact List.mem_append_left _ (exactp_mem_attemptTrace b dr nm j)
      · have := ih (k + 1) hres j (by omega) (by omega)
        exact List.mem_append_right _ (List.mem_cons_of_mem _ this)
    · simp only [waitAux, har] at hres
      cases hres

theorem waitAux_none_all_miss (b : Backend) (dr : Option String) (nm : String) (s : Nat) :
    ∀ rem k, (waitAux b dr nm s k rem).1 = none →
      ∀ j, k ≤ j → j < k + rem → attemptResult b dr nm j = none := by
  intro rem
  induction rem with
  | zero =>
    intro k _ j h1 h2
    omega
  | succ r ih =>
    intro k hres j h1 h2
    rcases har : attemptResult b dr nm k with _ | it0
    · by_cases hjk : j = k
      · subst hjk; exact har
      · simp only [waitAux, har] at hres
        exact ih (k + 1) hres j (by omega) (by omega)
    · simp only [waitAux, har] at hres
      cases hres

/-! Claim theorems. -/

/-- C1: the reconciliation loop `wait_for_file` performs at most
`attempts` attempts (the script calls it with its default of 6): every
recorded backend interaction belongs to an attempt index below `attempts`
(so nothing is issued after exhaustion), each attempt issues at most the
three probe calls, and when every attempt within the budget misses the
loop returns `none`, regardless of what the probes return. -/
theorem claim_C1_loop_bounded (b : Backend) (dr : Option String) (nm : String)
    (attempts sleepSec : Nat) :
    (∀ c ∈ (wait_for_file b dr nm attempts sleepSec).2, attemptOfCall c < attempts) ∧
    (∀ j, ((wait_for_file b dr nm attempts sleepSec).2.filter
        (fun c => isProbe c && (attemptOfCall c == j))).length ≤ 3) ∧
    ((∀ j, j < attempts → attemptResult b dr nm j = none) →
      (wait_for_file b dr nm attempts sleepSec).1 = none) := by
  refine ⟨?_, ?_, ?_⟩
  · intro c hc
    have := waitAux_attempt_range b dr nm sleepSec attempts 0 c hc
    omega
  · intro j
    exact waitAux_probe_count b dr nm sleepSec attempts 0 j
  · intro hmiss
    exact waitAux_none_of_all_miss b dr nm sleepSec attempts 0
      (fun j h1 h2 => hmiss j (by omega))

/-- C1 witness: on a backend where every probe errors, a two-attempt run
misses everywhere, returns `none`, and records calls only within the
budget. -/
theorem claim_C1_loop_bounded_witness :
    (wait_for_file allMiss (some "a") "f.txt" 2 2).1 = none ∧
    (∀ c ∈ (wait_for_file allMiss (some "a") "f.txt" 2 2).2, attemptOfCall c < 2) := by
  have h := claim_C1_loop_bounded allMiss (some "a") "f.txt" 2 2
  exact ⟨h.2.2 (by decide), h.1⟩

/-- C2: within any attempt, an exact-path hit makes the loop return that
item at once, and neither the folder listing nor the search is invoked for
that attempt; conversely the search probe runs in an attempt only when
both the exact-path probe and the filtered folder listing of that attempt
yielded nothing. -/
theorem claim_C2_short_circuit (b : Backend) (dr : Option String) (nm : String)
    (attempts sleepSec j : Nat) (it : Item) :
    (runExact b dr nm j = some it →
      Call.exactp j ∈ (wait_for_file b dr nm attempts sleepSec).2 →
      (wait_for_file b dr nm attempts sleepSec).1 = some it ∧
      Call.listf j ∉ (wait_for_file b dr nm attempts sleepSec).2 ∧
      Call.searchp j ∉ (wait_for_file b dr nm attempts sleepSec).2) ∧
    (Call.searchp j ∈ (wait_for_file b dr nm attempts sleepSec).2 →
      runExact b dr nm j = none ∧ candidatesOf b dr nm j = []) := by
  constructor
  · intro hre hmem
    exact waitAux_exact_hit b dr nm sleepSec attempts 0 j it hre hmem
  · intro hmem
    exact waitAux_search_pre b dr nm sleepSec attempts 0 j hmem

/-- C2 witness: a first-attempt exact hit returns that item and the trace
contains neither a folder listing nor a search for attempt 0. -/
theorem claim_C2_short_circuit_witness :
    (wait_for_file exactHitBackend (some "a") "f.txt" 6 2).1 =
      some ⟨some "f.txt", some "2024", none⟩ ∧
    Call.listf 0 ∉ (wait_for_file exactHitBackend (some "a") "f.txt" 6 2).2 ∧
    Call.searchp 0 ∉ (wait_for_file exactHitBackend (some "a") "f.txt" 6 2).2 :=
  (claim_C2_short_circuit exactHitBackend (some "a") "f.txt" 6 2 0
    ⟨some "f.txt", some "2024", none⟩).1 (by decide) (by decide)

/-- C3 counterexample: with a single-attempt budget on an all-missing
backend the loop sleeps for the configured delay after the final (and
only) failed attempt and then returns `none`, contrary to the claim that
no sleep follows the final failed attempt. -/
theorem claim_C3_cex_sleep_after_final :
    (wait_for_file allMiss (some "a") "f.txt" 1 2).1 = none ∧
    Call.sleepc 0 2 ∈ (wait_for_file allMiss (some "a") "f.txt" 1 2).2 := by
  decide

/-- C3 amended: when all three strategies yield nothing in an attempt the
loop sleeps for the configured delay after that attempt — including after
the final attempt: a sleep with duration `d` is recorded for attempt `j`
exactly when `d` is the configured delay and attempt `j` ran and fully
missed, and a `none` outcome always ends with a sleep for the final
attempt `attempts - 1`. -/
theorem claim_C3_sleep_after_each_miss (b : Backend) (dr : Option String) (nm : String)
    (attempts sleepSec j d : Nat) :
    (Call.sleepc j d ∈ (wait_for_file b dr nm attempts sleepSec).2 ↔
      (d = sleepSec ∧ Call.exactp j ∈ (wait_for_file b dr nm attempts sleepSec).2 ∧
        attemptResult b dr nm j = none)) ∧
    ((wait_for_file b dr nm attempts sleepSec).1 = none → 0 < attempts →
      Call.sleepc (attempts - 1) sleepSec ∈ (wait_for_file b dr nm attempts sleepSec).2) := by
  constructor
  · exact waitAux_sleep_iff b dr nm sleepSec attempts 0 j d
  · intro hres hpos
    have hex : Call.exactp (attempts - 1) ∈ (wait_for_file b dr nm attempts sleepSec).2 :=
      waitAux_all_ran b dr nm sleepSec attempts 0 hres (attempts - 1) (by omega) (by omega)
    have hmiss : attemptResult b dr nm (attempts - 1) = none :=
      waitAux_none_all_miss b dr nm sleepSec attempts 0 hres (attempts - 1) (by omega) (by omega)
    exact (waitAux_sleep_iff b dr nm sleepSec attempts 0 (attempts - 1) sleepSec).mpr
      ⟨rfl, hex, hmiss⟩

/-- C3 witness: a fully missed two-attempt run sleeps after its final
attempt. -/
theorem claim_C3_sleep_after_each_miss_witness :
    Call.sleepc 1 2 ∈ (wait_for_file allMiss (some "a") "f.txt" 2 2).2 :=
  (claim_C3_sleep_after_each_miss allMiss (some "a") "f.txt" 2 2 0 0).2
    (by decide) (by decide)

/-- C4 counterexample: folder matching is case-sensitive.  The second
candidate's parent path contains the expected folder up to letter case
(witnessed via `lowerStr`), the first candidate's does not, and the first
is more recent; the claimed case-insensitive ranker would select the
folder-matching second candidate, but the code finds no verbatim match,
keeps the full set, and returns the more recent non-matching candidate. -/
theorem claim_C4_cex_case_sensitive :
    rank [⟨some "f.txt", some "2024-02-01", some "/drive/root:/Other"⟩,
          ⟨some "f.txt", some "2024-01-01", some "/drive/root:/shared documents/x"⟩]
        (some "Shared Documents") =
      some ⟨some "f.txt", some "2024-02-01", some "/drive/root:/Other"⟩ ∧
    substr (lowerStr "Shared Documents")
        (lowerStr "/drive/root:/shared documents/x") = true ∧
    substr (lowerStr "Shared Documents") (lowerStr "/drive/root:/Other") = false ∧
    folderMatch "Shared Documents"
        ⟨some "f.txt", some "2024-01-01", some "/drive/root:/shared documents/x"⟩ = false := by
  decide

/-- C4 amended: for a present non-empty expected folder the ranker
restricts a non-empty candidate list to those whose parent path contains
the folder case-sensitively but encoding-tolerantly (raw containment of
the space-encoded folder, or containment in the percent-decoded parent
path), falls back to the full set when no candidate matches, and returns
the most recently modified item of the chosen set; in particular a
verbatim folder-matching candidate is selected over a non-matching one
regardless of which is more recent. -/
theorem claim_C4_folder_preference (d : String) (hd : d ≠ "") :
    (∀ results : List Item, results ≠ [] →
      rank results (some d) =
        pickNewest (if (results.filter (folderMatch d)).isEmpty then results
          else results.filter (folderMatch d))) ∧
    (∀ x y : Item, folderMatch d x = true → folderMatch d y = false →
      rank [y, x] (some d) = some x ∧ rank [x, y] (some d) = some x) := by
  have hd' : (d != "") = true := by simpa using hd
  constructor
  · intro results hres
    rcases results with _ | ⟨r0, rs⟩
    · exact absurd rfl hres
    · simp [rank, preferFolder, hd']
  · intro x y hx hy
    have hfil1 : List.filter (folderMatch d) [y, x] = [x] := by
      simp [List.filter_cons, hx, hy]
    have hfil2 : List.filter (folderMatch d) [x, y] = [x] := by
      simp [List.filter_cons, hx, hy]
    constructor
    · simp [rank, preferFolder, hd', hfil1, pickNewest, sortDescBy, insertDesc]
    · simp [rank, preferFolder, hd', hfil2, pickNewest, sortDescBy, insertDesc]

/-- C4 witness: with expected folder `"Shared Documents"`, a candidate
whose parent path contains the space-encoded folder is selected over a
more recent candidate whose parent path does not. -/
theorem claim_C4_folder_preference_witness :
    rank [⟨some "f.txt", some "2024-02-01", some "/drive/root:/Other"⟩,
          ⟨some "f.txt", some "2024-01-01", some "/drive/root:/Shared%20Documents/x"⟩]
        (some "Shared Documents") =
      some ⟨some "f.txt", some "2024-01-01", some "/drive/root:/Shared%20Documents/x"⟩ :=
  ((claim_C4_folder_preference "Shared Documents" (by decide)).2
    ⟨some "f.txt", some "2024-01-01", some "/drive/root:/Shared%20Documents/x"⟩
    ⟨some "f.txt", some "2024-02-01", some "/drive/root:/Other"⟩
    (by decide) (by decide)).1

/-- C5 counterexample: the code preserves trailing slashes, so the result
is not the suffix of the slash-trimmed input: on
`"a/Shared Documents/Bar/"` derive returns `"Shared Documents/Bar/"`,
which differs from — and is not a suffix of — the slash-trimmed input
`"a/Shared Documents/Bar"`, whose suffix at the last token occurrence
would be `"Shared Documents/Bar"`. -/
theorem claim_C5_cex_trailing_slash :
    derive_drive_rel_path (some "a/Shared Documents/Bar/") =
      some "Shared Documents/Bar/" ∧
    "Shared Documents/Bar/" ≠ "Shared Documents/Bar" ∧
    "Shared Documents/Bar/".data.isSuffixOf "a/Shared Documents/Bar".data = false := by
  decide

/-- C5 amended: for every non-empty location whose normalised form
(whitespace stripped and LEADING slashes removed — the code's exact
`strip().lstrip("/")` normalisation; trailing slashes are preserved)
contains the canonical `"Shared Documents"` token, `derive_drive_rel_path`
returns the suffix of that normalised input starting at the LAST
occurrence of the token: the result is a suffix, starts with the token,
and the token occurs nowhere in it after position 0, so any deeper folder
structure after that last occurrence is preserved (including any trailing
slash). -/
theorem claim_C5_last_token_suffix (s : String) (h1 : s ≠ "")
    (h2 : listInfix sharedDocsToken (normLoc s) = true) :
    ∃ r : List Char, derive_drive_rel_path (some s) = some (String.mk r) ∧
      sharedDocsToken.isPrefixOf r = true ∧ r <:+ normLoc s ∧
      listInfix sharedDocsToken (r.drop 1) = false := by
  have hs : (s == "") = false := by simpa using h1
  rcases hfl : fromLast sharedDocsToken (normLoc s) with _ | r
  · have hiso := fromLast_isSome sharedDocsToken (normLoc s)
    rw [hfl, h2] at hiso
    simp at hiso
  · obtain ⟨hp, hsuf, hlast⟩ := fromLast_spec sharedDocsToken (by decide) (normLoc s) r hfl
    refine ⟨r, ?_, hp, hsuf, hlast⟩
    simp [derive_drive_rel_path, hs, hfl]

/-- C5 witness: the spec's doubled-token example keeps the suffix at the
last occurrence. -/
theorem claim_C5_last_token_suffix_witness :
    (∃ r : List Char,
      derive_drive_rel_path (some "sites/Foo/Shared Documents/Foo/Shared Documents/Bar") =
        some (String.mk r) ∧
      sharedDocsToken.isPrefixOf r = true ∧
      r <:+ normLoc "sites/Foo/Shared Documents/Foo/Shared Documents/Bar" ∧
      listInfix sharedDocsToken (r.drop 1) = false) ∧
    derive_drive_rel_path (some "sites/Foo/Shared Documents/Foo/Shared Documents/Bar") =
      some "Shared Documents/Bar" :=
  ⟨claim_C5_last_token_suffix "sites/Foo/Shared Documents/Foo/Shared Documents/Bar"
    (by decide) (by decide), by decide⟩

/-- C6 counterexample: status 203 lies in the HTTP success class (2xx) yet
the restore submission raises on it, because the code accepts only the
fixed status set 200/201/202/204/207, a proper subset of the class. -/
theorem claim_C6_cex_success_class :
    batch_restore ["a"] ⟨203, some []⟩ = .error 203 ∧ 200 ≤ 203 ∧ 203 < 300 :=
  ⟨rfl, by decide, by decide⟩

/-- C6 amended: the restore submission raises exactly when the response
status is outside the accepted set 200/201/202/204/207 (not the whole 2xx
success class); in particular a 207 partial-success never raises and the
call returns the response's acknowledgement entries as parsed, however the
acknowledgement list relates to the requested ids. -/
theorem claim_C6_restore_statuses (ids : List String) (resp : PostResponse) :
    ((∃ out, batch_restore ids resp = .ok out) ↔ resp.status ∈ successStatuses) ∧
    (resp.status = 207 → batch_restore ids resp = .ok (resp.value.getD [])) := by
  constructor
  · constructor
    · rintro ⟨out, hout⟩
      unfold batch_restore gpost_json at hout
      by_cases h : resp.status ∈ successStatuses
      · exact h
      · rw [if_neg h] at hout
        cases hout
    · intro h
      refine ⟨resp.value.getD [], ?_⟩
      unfold batch_restore gpost_json
      rw [if_pos h]
  · intro h207
    unfold batch_restore gpost_json
    rw [if_pos (by rw [h207]; decide)]

/-- C6 witness: a 207 partial-success acknowledging only `"a"` out of the
requested `"a"`, `"b"` does not raise; the requested list still contains
`"b"` while the echoed acknowledged ids do not. -/
theorem claim_C6_restore_statuses_witness :
    batch_restore ["a", "b"] ⟨207, some [⟨some "a"⟩]⟩ = .ok [⟨some "a"⟩] ∧
    "b" ∈ ["a", "b"] ∧ some "b" ∉ echoedIds [⟨some "a"⟩] :=
  ⟨(claim_C6_restore_statuses ["a", "b"] ⟨207, some [⟨some "a"⟩]⟩).2 rfl,
    by decide, by decide⟩

/-- C7: no read probe propagates a backend error: on any erroring response
(`gget` raises on every non-ok status, including not-found) the exact-path
probe returns `none` and the folder-listing and name-search probes return
`[]`, for every folder path and name, so a probe failure only degrades to
the next strategy. -/
theorem claim_C7_probes_swallow_errors (dr nm : Option String) (e : GraphError) :
    get_drive_item_by_exact_path dr nm (.error e) = none ∧
    list_children dr (.error e) = [] ∧
    search_by_name (.error e) = [] := by
  refine ⟨?_, ?_, rfl⟩
  · unfold get_drive_item_by_exact_path
    split <;> rfl
  · unfold list_children
    split <;> rfl

/-- C8 counterexample: trailing slashes are not trimmed: the fallback
returns `"abc/"` with its trailing slash where the claim requires the
slash-trimmed `"abc"`. -/
theorem claim_C8_cex_trailing_slash :
    derive_drive_rel_path (some "abc/") = some "abc/" ∧ "abc/" ≠ "abc" := by
  decide

/-- C8 amended: `derive_drive_rel_path` is a total function (it can raise
no exception); it returns `none` when its input is `none` or the empty
string, and for every other input it operates on the input with
surrounding whitespace and then LEADING slashes removed — trailing slashes
are preserved — so in the fallback case (no canonical token, no
`sites/<segment>/` match) it returns exactly that normalised string. -/
theorem claim_C8_derive_fallback (s : String) (h1 : s ≠ "")
    (h2 : listInfix sharedDocsToken (normLoc s) = false)
    (h3 : sitesRest (normLoc s) = none) :
    derive_drive_rel_path none = none ∧
    derive_drive_rel_path (some "") = none ∧
    derive_drive_rel_path (some s) = some (String.mk (normLoc s)) := by
  refine ⟨rfl, rfl, ?_⟩
  have hs : (s == "") = false := by simpa using h1
  have hfl : fromLast sharedDocsToken (normLoc s) = none := by
    have hiso := fromLast_isSome sharedDocsToken (normLoc s)
    rw [h2] at hiso
    rcases hfl0 : fromLast sharedDocsToken (normLoc s) with _ | r
    · rfl
    · rw [hfl0] at hiso
      simp at hiso
  simp [derive_drive_rel_path, hs, hfl, h3]

/-- C8 witness: a whitespace- and slash-wrapped fallback input keeps its
trailing slash. -/
theorem claim_C8_derive_fallback_witness :
    derive_drive_rel_path (some " /abc/def/ ") = some "abc/def/" :=
  (claim_C8_derive_fallback " /abc/def/ " (by decide) (by decide) (by decide)).2.2

/-- C9: ranking is idempotent on singletons: for every item and every
optional expected folder (present or absent), both ranking sites select
the item itself from the singleton candidate list. -/
theorem claim_C9_rank_idempotent (x : Item) (fd : Option String) :
    rank [x] fd = some x ∧ pickNewest [x] = some x := by
  refine ⟨?_, rfl⟩
  cases fd with
  | none => rfl
  | some d =>
    by_cases hd : (d != "") = true
    · by_cases hm : folderMatch d x = true
      · simp [rank, preferFolder, hd, hm, List.filter, pickNewest, sortDescBy, insertDesc]
      · rw [Bool.not_eq_true] at hm
        simp [rank, preferFolder, hd, hm, List.filter, pickNewest, sortDescBy, insertDesc]
    · rw [Bool.not_eq_true] at hd
      simp [rank, preferFolder, hd, pickNewest, sortDescBy, insertDesc]

/-- C10 counterexample: a candidate with the (empty-string) timestamp `""`
does not outrank a candidate with no timestamp: the keys tie and the
stable sort keeps the no-timestamp candidate that came first in backend
order. -/
theorem claim_C10_cex_empty_timestamp :
    pickNewest [⟨some "a", none, none⟩, ⟨some "b", some "", none⟩] =
      some ⟨some "a", none, none⟩ ∧
    (⟨some "b", some "", none⟩ : Item).lastModifiedDateTime.isSome = true ∧
    (⟨some "a", none, none⟩ : Item).lastModifiedDateTime = none := by
  decide

/-- C10 amended: both ranking sites select by descending lexicographic
comparison of the raw `lastModifiedDateTime` strings with a missing
timestamp read as `""`: the selected item is a candidate whose key is not
lexicographically below any candidate's; when every candidate lacks a
timestamp the sort is stable and the first candidate in backend order is
selected; and whenever some candidate has a NON-EMPTY timestamp the
selected item's timestamp key is non-empty (an empty-string timestamp,
however, ties with a missing one). -/
theorem claim_C10_recency_ranking :
    (∀ (l : List Item) (m : Item), pickNewest l = some m →
      m ∈ l ∧ ∀ x ∈ l, lexLt (tsKeyL m) (tsKeyL x) = false) ∧
    (∀ l : List Item, (∀ x ∈ l, x.lastModifiedDateTime = none) →
      pickNewest l = l.head?) ∧
    (∀ (l : List Item) (m y : Item), pickNewest l = some m → y ∈ l →
      tsKeyL y ≠ [] → tsKeyL m ≠ []) := by
  refine ⟨fun l m h => pickNewest_spec l m h, ?_, ?_⟩
  · intro l hnone
    have hkeys : ∀ x ∈ l, tsKeyL x = [] := by
      intro x hx
      unfold tsKeyL
      rw [hnone x hx]
      rfl
    unfold pickNewest
    rw [sortDescBy_const_key l hkeys]
  · intro l m y hm hy hyne hmeq
    have hmax := (pickNewest_spec l m hm).2 y hy
    rw [hmeq] at hmax
    rcases hk : tsKeyL y with _ | ⟨c, cs⟩
    · exact hyne hk
    · rw [hk] at hmax
      simp [lexLt] at hmax

/-- C10 witness: on a concrete two-candidate list the selected item is a
member whose key is maximal. -/
theorem claim_C10_recency_ranking_witness :
    (⟨some "a", some "2024-02", none⟩ : Item) ∈
      [(⟨some "b", some "2024-01", none⟩ : Item), ⟨some "a", some "2024-02", none⟩] ∧
    ∀ x ∈ [(⟨some "b", some "2024-01", none⟩ : Item), ⟨some "a", some "2024-02", none⟩],
      lexLt (tsKeyL ⟨some "a", some "2024-02", none⟩) (tsKeyL x) = false :=
  claim_C10_recency_ranking.1
    [⟨some "b", some "2024-01", none⟩, ⟨some "a", some "2024-02", none⟩]
    ⟨some "a", some "2024-02", none⟩ (by decide)

end SpRb
